import Mathlib

/-!
Verification of the goloop/openai client library core against its
natural-language specification.

The Go source is shallowly embedded: pure helpers become Lean functions,
the concurrent fan-out executor (`Client.Models` and friends) becomes a
fold over an arbitrary completion schedule plus a labelled transition
system for the semaphore discipline, and stateful collaborators
(`net/http`, `os.File`) become explicit state passing.
-/

namespace OpenAI

/-! ## Bounded fan-out executor (`Client.Models`, chat_completion.go)

`Models` launches one goroutine per key.  Goroutine `i` computes
`resp, err` for key `keys[i]` and executes `data[i], errs[i] = resp, err`.
The per-key operation is modelled as `op : κ → ρ × Option ε` (the Go code
always assigns the response pointer, and the error slot may be nil).
A run of the concurrent phase is modelled by a completion schedule: a list
of `(index, key)` jobs processed in some order; faithfulness to Go is the
hypothesis that the schedule is a permutation of `keys.enum`, i.e. every
launched goroutine finishes exactly once (`wg.Wait`).  `data` starts as
`make(ModelsData, len(models))` (nil pointers, modelled `none`) and `errs`
as nil errors. -/

variable {κ ρ ε : Type}

/-- One goroutine completing: `data[i], errs[i] = resp, err` for job `(i, k)`. -/
def fanStep (op : κ → ρ × Option ε) (st : List (Option ρ) × List (Option ε))
    (job : Nat × κ) : List (Option ρ) × List (Option ε) :=
  (st.1.set job.1 (some (op job.2).1), st.2.set job.1 (op job.2).2)

/-- The concurrent phase of `Models`: all goroutines complete, in the order
given by `sched`, starting from pre-sized nil-filled `data` and `errs`. -/
def runFanOut (op : κ → ρ × Option ε) (n : Nat) (sched : List (Nat × κ)) :
    List (Option ρ) × List (Option ε) :=
  sched.foldl (fanStep op) (List.replicate n none, List.replicate n none)

/-- The fan-out branch of `Client.Models` (non-empty key list): run all
goroutines, wait, then scan `errs` in input order and return the first
non-nil error together with `ModelsData{}`, or `data` with no error. -/
def modelsFanOut (op : κ → ρ × Option ε) (keys : List κ) (sched : List (Nat × κ)) :
    List (Option ρ) × Option ε :=
  match (runFanOut op keys.length sched).2.findSome? id with
  | some e => ([], some e)
  | none => ((runFanOut op keys.length sched).1, none)

/-! ## Semaphore token discipline (`Models`, `Files`, `FineTunes`, `saveByURL`,
`saveByBase64`)

Every fan-out and batch-save loop follows the same pattern around a buffered
channel `sem := make(chan struct\x7b\x7d, C)`: a task sends into `sem`
before running its body (the send blocks while `C` tokens are held) and a
deferred receive `<-sem` releases the token when the body finishes, whether
it succeeded or failed.  The pattern is modelled as a labelled transition
system over the program counters of `n` tasks plus the channel occupancy. -/

/-- Program counter of one task in a fan-out/batch-save loop. -/
inductive TaskPC : Type
  | idle
  | running
  | done
deriving DecidableEq

/-- Global state: each task's program counter and the number of semaphore
tokens currently held (occupancy of the buffered channel). -/
structure SemState : Type where
  pcs : List TaskPC
  tokens : Nat
deriving DecidableEq

/-- Initial state: no task started, no token held. -/
def initSem (n : Nat) : SemState :=
  ⟨List.replicate n TaskPC.idle, 0⟩

/-- Number of task bodies currently running. -/
def countRunning (pcs : List TaskPC) : Nat :=
  pcs.countP fun pc => decide (pc = TaskPC.running)

/-- Interleaving semantics of the semaphore pattern with capacity `limit`:
`acquire` is the send into the buffered channel (enabled only while fewer
than `limit` tokens are held) after which the task body runs; `release` is
the deferred receive when the body finishes with outcome `ok` — the token
is released unconditionally, on success and on failure alike. -/
inductive SemStep (limit : Nat) : SemState → SemState → Prop
  | acquire (s : SemState) (i : Nat) (hpc : s.pcs[i]? = some TaskPC.idle)
      (htok : s.tokens < limit) :
      SemStep limit s ⟨s.pcs.set i TaskPC.running, s.tokens + 1⟩
  | release (s : SemState) (i : Nat) (ok : Bool)
      (hpc : s.pcs[i]? = some TaskPC.running) :
      SemStep limit s ⟨s.pcs.set i TaskPC.done, s.tokens - 1⟩

/-- States reachable by interleaved execution of `n` tasks under the
semaphore of capacity `limit`. -/
def SemReachable (limit n : Nat) (s : SemState) : Prop :=
  Relation.ReflTransGen (SemStep limit) (initSem n) s

/-! ## File-handle release (`ImageEditRequest.Flush`, completion.go)

`os.File` handles are modelled by numeric descriptors and the OS state by
the list of currently open descriptors; `(*os.File).Close` removes the
descriptor (a second close is an error in Go, which the code ignores, and
has no further effect on the open set). -/

/-- The set of open file descriptors. -/
structure FDState : Type where
  openFDs : List Nat
deriving DecidableEq

/-- `file.Close()`: the descriptor is no longer open afterwards. -/
def closeFD (s : FDState) (fd : Nat) : FDState :=
  ⟨s.openFDs.filter fun x => x ≠ fd⟩

/-- The two `*os.File` fields of an `ImageEditRequest` (`none` = nil). -/
structure ImageEditFiles : Type where
  image : Option Nat
  mask : Option Nat
deriving DecidableEq

/-- `CloseImageFile`: `if r.Image != nil \x7b r.Image.Close() \x7d`. -/
def closeImageFile (r : ImageEditFiles) (s : FDState) : FDState :=
  match r.image with
  | some fd => closeFD s fd
  | none => s

/-- `CloseMaskFile` as written in the source: its body tests and closes
`r.Image`, not `r.Mask` (`if r.Image != nil \x7b r.Image.Close() \x7d`),
although its doc comment says it closes the Mask descriptor. -/
def closeMaskFile (r : ImageEditFiles) (s : FDState) : FDState :=
  match r.image with
  | some fd => closeFD s fd
  | none => s

/-- `ImageEditRequest.Flush`: `CloseImageFile` then `CloseMaskFile`. -/
def imageEditFlush (r : ImageEditFiles) (s : FDState) : FDState :=
  closeMaskFile r (closeImageFile r s)

/-! ## Request headers (`newJSONRequest` / `newDataRequest`, completion.go)

HTTP headers are modelled as an ordered association list; `Header.Set`
replaces every entry under the key and `Header.Add` appends an entry.
Keys appear in canonical MIME form, as written in the source. -/

/-- `req.Header.Set(k, v)`. -/
def hdrSet (h : List (String × String)) (k v : String) : List (String × String) :=
  (h.filter fun p => p.1 ≠ k) ++ [(k, v)]

/-- `req.Header.Add(k, v)`. -/
def hdrAdd (h : List (String × String)) (k v : String) : List (String × String) :=
  h ++ [(k, v)]

/-- The client configuration visible to the request builders
(`Clienter.APIKey`, `.OrgID`, `.HTTPHeaders`). -/
structure ClientCfg : Type where
  apiKey : String
  orgID : String
  httpHeaders : List (String × String)

/-- Headers produced by `newJSONRequest`: content type, bearer authorization,
the organization header when `OrgID` is non-empty, then every additionally
configured header added additively. -/
def newJSONRequestHeaders (c : ClientCfg) : List (String × String) :=
  let h0 := hdrSet [] "Content-Type" "application/json"
  let h1 := hdrSet h0 "Authorization" ("Bearer " ++ c.apiKey)
  let h2 := if c.orgID ≠ "" then hdrSet h1 "OpenAI-Organization" c.orgID else h1
  c.httpHeaders.foldl (fun acc p => hdrAdd acc p.1 p.2) h2

/-- Headers produced by `newDataRequest`: the multipart boundary content
type, bearer authorization and the organization header when `OrgID` is
non-empty.  The source never consults `c.HTTPHeaders()` here. -/
def newDataRequestHeaders (c : ClientCfg) (contentType : String) :
    List (String × String) :=
  let h0 := hdrSet [] "Content-Type" contentType
  let h1 := hdrSet h0 "Authorization" ("Bearer " ++ c.apiKey)
  if c.orgID ≠ "" then hdrSet h1 "OpenAI-Organization" c.orgID else h1

/-! ## Transport executor (`isSuccessfulCode` / `doRequest`, completion.go)

`c.HTTPClient().Do(req)` is modelled by a `TransportResult`: either a
transport failure carrying a Go error value (whose `net.Error`-timeout
test is the `isNetTimeout` flag), or a response with a status code and a
fully read body (`ioutil.ReadAll` is modelled as infallible, the body
being given as a value).  `json.Unmarshal` into `ErrorResponse` is
modelled by a decoder `parseErrorBody` returning `none` exactly when
unmarshalling fails, in which case the Go code ignores the error and keeps
the zero-valued `ErrorResponse\x7b\x7d`.  The success sink `goal` is
`none` when the Go `goal` is nil or not a pointer to a struct, and
otherwise carries the JSON decoder for the sink type. -/

/-- A Go error value as seen by `doRequest`'s transport branch. -/
structure GoError : Type where
  msg : String
  isNetTimeout : Bool
deriving DecidableEq

/-- Outcome of `c.HTTPClient().Do(req)`. -/
inductive TransportResult : Type
  | failure (e : GoError)
  | response (status : Int) (body : String)
deriving DecidableEq

/-- The error payload shape consumed from the wire (error.go). -/
structure Error : Type where
  message : String
  type : String
  param : String
  code : String
deriving DecidableEq

/-- The error response wrapper consumed from the wire (error.go). -/
structure ErrorResponse : Type where
  error : Error
deriving DecidableEq

/-- Errors returned by `doRequest`: the `ErrRequestTimedOut` sentinel, the
underlying transport error returned as-is, the formatted non-success
error `"non-success status code %d: %s"`, or a failed unmarshal of a
success body. -/
inductive ReqError : Type
  | requestTimedOut
  | underlying (e : GoError)
  | nonSuccess (status : Int) (message : String)
  | decodeFailed
deriving DecidableEq

/-- `isSuccessfulCode`: status codes in `[200, 400)` are successful. -/
def isSuccessfulCode (statusCode : Int) : Bool :=
  decide (200 ≤ statusCode) && decide (statusCode < 400)

/-- `doRequest`: sends the request and classifies the outcome, returning
the response body bytes and an optional error exactly as the Go code
does. -/
def doRequest {σ : Type} (parseErrorBody : String → Option ErrorResponse)
    (goal : Option (String → Option σ)) (tr : TransportResult) :
    String × Option ReqError :=
  match tr with
  | .failure e =>
    if e.isNetTimeout then ("", some .requestTimedOut)
    else ("", some (.underlying e))
  | .response status body =>
    if !isSuccessfulCode status then
      ("", some (.nonSuccess status
        ((parseErrorBody body).getD ⟨⟨"", "", "", ""⟩⟩).error.message))
    else
      match goal with
      | none => (body, none)
      | some dec =>
        match dec body with
        | some _ => (body, none)
        | none => ("", some .decodeFailed)

/-! ## Multipart marshaler (`newDataRequest`, completion.go)

`newDataRequest` reflects over the declared fields of the request struct.
A field is modelled by its `json` struct tag and its value: a `*os.File`
(possibly nil), a string-kind value, or any other kind represented by its
`encoding/json` image.  Writing a part into the `bytes.Buffer`-backed
multipart writer cannot fail, and `json.Marshal` is total on the modelled
value kinds, so the error paths of the Go loop are unreachable here and
the marshaler is modelled as the list of parts it emits, in declaration
order. -/

/-- An open `*os.File` value: the name it was opened with and the bytes
`io.Copy` reads from it. -/
structure GoFile : Type where
  name : String
  content : List UInt8
deriving DecidableEq

/-- JSON values: the `encoding/json` image of non-file, non-string request
fields (numbers restricted to integers, which is what the modelled
request types use for non-float fields). -/
inductive Json : Type
  | null
  | bool (b : Bool)
  | num (n : Int)
  | str (s : String)
  | arr (elems : List Json)
  | obj (fields : List (String × Json))

/-- One hexadecimal digit, lowercase, as produced by Go's `%04x`. -/
def hexDigitChar (n : Nat) : Char :=
  if n < 10 then Char.ofNat ('0'.toNat + n) else Char.ofNat ('a'.toNat + (n - 10))

/-- Escaping of a single character inside a JSON string, as performed by
`encoding/json` with its default HTML escaping. -/
def jsonQuoteChar (c : Char) : String :=
  if c = '"' then "\\\""
  else if c = '\\' then "\\\\"
  else if c = '\n' then "\\n"
  else if c = '\r' then "\\r"
  else if c = '\t' then "\\t"
  else if c = '<' then "\\u003c"
  else if c = '>' then "\\u003e"
  else if c = '&' then "\\u0026"
  else if c.toNat < 32 then
    "\\u00" ++ String.mk [hexDigitChar (c.toNat / 16), hexDigitChar (c.toNat % 16)]
  else if c.toNat = 0x2028 then "\\u2028"
  else if c.toNat = 0x2029 then "\\u2029"
  else String.singleton c

/-- A JSON string literal as produced by `encoding/json`. -/
def jsonQuote (s : String) : String :=
  "\"" ++ String.join (s.data.map jsonQuoteChar) ++ "\""

mutual

/-- Compact serialization of a JSON value, as `json.Marshal` produces it
(object fields in declaration order). -/
def Json.render : Json → String
  | .null => "null"
  | .bool b => if b then "true" else "false"
  | .num n => toString n
  | .str s => jsonQuote s
  | .arr elems => "[" ++ Json.renderElems elems ++ "]"
  | .obj fields => "\x7b" ++ Json.renderFields fields ++ "\x7d"

/-- Comma-separated serialization of JSON array elements. -/
def Json.renderElems : List Json → String
  | [] => ""
  | [j] => Json.render j
  | j :: rest => Json.render j ++ "," ++ Json.renderElems rest

/-- Comma-separated serialization of JSON object fields. -/
def Json.renderFields : List (String × Json) → String
  | [] => ""
  | [(k, v)] => jsonQuote k ++ ":" ++ Json.render v
  | (k, v) :: rest => jsonQuote k ++ ":" ++ Json.render v ++ "," ++ Json.renderFields rest

end

/-- The value of one reflected request field. -/
inductive GoValue : Type
  | fileVal (f : Option GoFile)
  | strVal (s : String)
  | jsonVal (j : Json)

/-- One declared field of a request struct: its `json` tag (`""` when the
tag is absent) and its value. -/
structure StructField : Type where
  jsonTag : String
  value : GoValue

/-- `strings.Split(jsonTag, ",")[0]`: the wire name from the tag, i.e. the
longest prefix of the tag before the first comma. -/
def jsonFieldName (tag : String) : String :=
  String.mk (tag.data.takeWhile fun c => c ≠ ',')

/-- `path/filepath.Base` (slash-separated paths): strip trailing
separators, then keep everything after the last separator. -/
def filepathBase (p : String) : String :=
  if p = "" then "."
  else
    let rev := p.data.reverse.dropWhile fun c => c = '/'
    if rev = [] then "/"
    else String.mk (rev.takeWhile fun c => c ≠ '/').reverse

/-- One part of the emitted multipart body. -/
inductive Part : Type
  | filePart (fieldname filename : String) (content : List UInt8)
  | fieldPart (fieldname value : String)
deriving DecidableEq

/-- The multipart body built by `newDataRequest`'s reflection loop: fields
without a `json` tag are skipped; a nil `*os.File` is skipped; a non-nil
`*os.File` becomes a form file part named by the wire name with the file's
base name and streamed contents; a string field is written verbatim; any
other field is JSON-encoded and the encoded text written as the form
field value. -/
def multipartParts (fields : List StructField) : List Part :=
  fields.foldl
    (fun acc f =>
      if f.jsonTag = "" then acc
      else
        match f.value with
        | .fileVal none => acc
        | .fileVal (some file) =>
          acc ++ [.filePart (jsonFieldName f.jsonTag) (filepathBase file.name)
            file.content]
        | .strVal s => acc ++ [.fieldPart (jsonFieldName f.jsonTag) s]
        | .jsonVal j => acc ++ [.fieldPart (jsonFieldName f.jsonTag) (Json.render j)])
    []

/-! ## Endpoint builder (`urlBuild`, completion.go)

`urlBuild` parses the base URL with `net/url.Parse`, joins the parsed path
with the segments via `path.Join`, and renders the result with
`URL.String()`.  Paths are modelled as `List Char` (Go strings of ASCII
text).  `path.Clean` is modelled by splitting on `/` and processing the
components with the usual `..`-stack, which computes the same lexically
cleaned path as Go's in-place algorithm. -/

/-- Does the text start with a path separator? -/
def startsSlash (cs : List Char) : Bool :=
  match cs.head? with
  | some c => c == '/'
  | none => false

/-- Does the text end with a path separator? -/
def endsSlash (cs : List Char) : Bool :=
  match cs.getLast? with
  | some c => c == '/'
  | none => false

/-- Does the text contain two adjacent path separators? -/
def hasDoubleSlash : List Char → Bool
  | [] => false
  | [_] => false
  | a :: b :: rest => (a == '/' && b == '/') || hasDoubleSlash (b :: rest)

/-- Split on `/` (as `strings.Split(s, "/")`): the list of separator-free
components, empty components included. -/
def splitSlash : List Char → List (List Char)
  | [] => [[]]
  | c :: rest =>
    if c = '/' then [] :: splitSlash rest
    else
      match splitSlash rest with
      | [] => [[c]]
      | g :: gs => (c :: g) :: gs

/-- Join components with `/` (as `strings.Join(elems, "/")`). -/
def joinSlash : List (List Char) → List Char
  | [] => []
  | [g] => g
  | g :: gs => g ++ '/' :: joinSlash gs

/-- The component pass of `path.Clean`: drop empty and `.` components,
resolve `..` against the processed stack (popping a real component,
dropping `..` at the root when the path is rooted, and keeping `..`
otherwise). -/
def cleanParts (rooted : Bool) : List (List Char) → List (List Char) → List (List Char)
  | acc, [] => acc.reverse
  | acc, p :: rest =>
    if p = [] ∨ p = ['.'] then cleanParts rooted acc rest
    else if p = ['.', '.'] then
      match acc with
      | top :: tail =>
        if top = ['.', '.'] then cleanParts rooted (['.', '.'] :: top :: tail) rest
        else cleanParts rooted tail rest
      | [] =>
        if rooted then cleanParts rooted [] rest
        else cleanParts rooted [['.', '.']] rest
    else cleanParts rooted (p :: acc) rest

/-- `path.Clean`: lexically clean the path — collapse duplicate
separators, resolve `.` and `..`, return `.` for the empty result (or `/`
for a rooted one). -/
def pathClean (p : List Char) : List Char :=
  if p = [] then ['.']
  else
    match cleanParts (startsSlash p) [] (splitSlash p), startsSlash p with
    | [], true => ['/']
    | [], false => ['.']
    | parts, true => '/' :: joinSlash parts
    | parts, false => joinSlash parts

/-- `path.Join`: drop leading empty elements, join the rest with `/` and
clean the result; all-empty input yields the empty path. -/
def pathJoin (elems : List (List Char)) : List Char :=
  match elems.dropWhile fun e => e = [] with
  | [] => []
  | rest => pathClean (joinSlash rest)

/-- An ASCII control character (rejected by `net/url.Parse`). -/
def isCtlChar (c : Char) : Bool :=
  decide (c.toNat < 0x20) || decide (c.toNat == 0x7f)

/-- A character allowed in a URL scheme. -/
def isSchemeChar (c : Char) : Bool :=
  c.isAlpha || c.isDigit || c == '+' || c == '-' || c == '.'

/-- A hexadecimal digit. -/
def isHexDigitChar (c : Char) : Bool :=
  c.isDigit || (decide ('a' ≤ c) && decide (c ≤ 'f')) ||
    (decide ('A' ≤ c) && decide (c ≤ 'F'))

/-- Scan for a `scheme://` prefix made of scheme characters; `none` when
the string has no such prefix (it is then all path). -/
def splitSchemeAux : List Char → List Char → Option (List Char × List Char)
  | [], _ => none
  | ':' :: '/' :: '/' :: rest, acc => if acc = [] then none else some (acc.reverse, rest)
  | c :: rest, acc => if isSchemeChar c then splitSchemeAux rest (c :: acc) else none

/-- Split an optional `scheme://` prefix off a URL string. -/
def splitScheme (s : List Char) : Option (List Char × List Char) :=
  splitSchemeAux s []

/-- Are all percent escapes in the text valid (`%` followed by two hex
digits)? -/
def validEscapes : List Char → Bool
  | [] => true
  | '%' :: a :: b :: rest => isHexDigitChar a && isHexDigitChar b && validEscapes rest
  | '%' :: _ => false
  | _ :: rest => validEscapes rest

/-- A parsed URL: scheme, host and path (userinfo, port, query and
fragment do not occur in the shapes the client builds). -/
structure GoURL : Type where
  scheme : List Char
  host : List Char
  path : List Char
deriving DecidableEq

/-- The ways the modelled parser rejects a URL string. -/
inductive URLParseError : Type
  | invalidControlCharacter
  | invalidEscape
deriving DecidableEq

/-- Modelled from `net/url.Parse` (standard-library collaborator of
`urlBuild`), restricted to the shapes this client exercises: an optional
`scheme://host` prefix followed by a path, with no userinfo, port, query,
fragment, protocol-relative `//…` form, or bare `scheme:opaque` colon.
Go's parser is lenient: a scheme-less string such as `"not a url"` parses
successfully as a URL whose path is the whole string; parsing fails on
ASCII control characters and on invalid percent escapes. -/
def urlParse (s : List Char) : Except URLParseError GoURL :=
  if s.any isCtlChar then .error .invalidControlCharacter
  else
    match splitScheme s with
    | some (sch, rest) =>
      if validEscapes (rest.drop ((rest.takeWhile fun c => c ≠ '/').length)) then
        .ok ⟨sch, rest.takeWhile fun c => c ≠ '/',
          rest.drop ((rest.takeWhile fun c => c ≠ '/').length)⟩
      else .error .invalidEscape
    | none =>
      if validEscapes s then .ok ⟨[], [], s⟩ else .error .invalidEscape

/-- Is the character kept unescaped in a URL path by `URL.String()`
(alphanumerics, the unreserved marks and the sub-delimiters Go keeps in
path mode)? -/
def keptInPath (c : Char) : Bool :=
  c.isAlphanum || c == '-' || c == '_' || c == '.' || c == '~' ||
    c == '$' || c == '&' || c == '+' || c == ',' || c == '/' ||
    c == ':' || c == ';' || c == '=' || c == '@'

/-- One uppercase hexadecimal digit, as Go's percent escaping produces. -/
def hexDigitUpper (n : Nat) : Char :=
  if n < 10 then Char.ofNat ('0'.toNat + n) else Char.ofNat ('A'.toNat + (n - 10))

/-- Percent-escape one (ASCII) character for a URL path. -/
def escapePathChar (c : Char) : List Char :=
  if keptInPath c then [c]
  else ['%', hexDigitUpper (c.toNat / 16 % 16), hexDigitUpper (c.toNat % 16)]

/-- Escape a URL path as `URL.EscapedPath()` does for ASCII text. -/
def escapePath (p : List Char) : List Char :=
  p.flatMap escapePathChar

/-- `URL.String()` on the modelled shapes: `scheme://host` when a scheme
is present, followed by the escaped path. -/
def urlString (u : GoURL) : List Char :=
  if u.scheme = [] then escapePath u.path
  else u.scheme ++ (':' :: '/' :: '/' :: u.host) ++ escapePath u.path

/-- The path computed by `urlBuild`:
`u.Path = path.Join(u.Path, path.Join(pathParts...))`. -/
def urlBuildPath (u : GoURL) (pathParts : List (List Char)) : List Char :=
  pathJoin [u.path, pathJoin pathParts]

/-- `urlBuild`: parse the base URL (propagating the parse error), join the
base path with the segments, and render the resulting URL. -/
def urlBuild (baseURL : List Char) (pathParts : List (List Char)) :
    Except URLParseError (List Char) :=
  match urlParse baseURL with
  | .error e => .error e
  | .ok u => .ok (urlString ⟨u.scheme, u.host, urlBuildPath u pathParts⟩)

/-! ## Supporting lemmas for the fan-out executor -/

theorem foldl_set_getElem? {α : Type} (f : Nat × κ → α) (g : Nat → α)
    (sched : List (Nat × κ)) (hg : ∀ p ∈ sched, f p = g p.1) (init : List α) (j : Nat) :
    (sched.foldl (fun acc p => acc.set p.1 (f p)) init)[j]? =
      if j ∈ sched.map Prod.fst then
        (if j < init.length then some (g j) else none)
      else init[j]? := by
  induction sched generalizing init with
  | nil => simp
  | cons p s ih =>
    have hfp : f p = g p.1 := hg p (by simp)
    have hg' : ∀ q ∈ s, f q = g q.1 := fun q hq => hg q (by simp [hq])
    simp only [List.foldl_cons]
    rw [ih hg']
    by_cases hjs : j ∈ s.map Prod.fst
    · simp [hjs, List.length_set]
    · by_cases hpj : p.1 = j
      · subst hpj
        rw [if_neg hjs]
        have hmem : p.1 ∈ (p :: s).map Prod.fst := by simp
        rw [if_pos hmem]
        by_cases hlen : p.1 < init.length
        · rw [List.getElem?_set_self (by simpa using hlen), if_pos (by simpa using hlen)]
          rw [hfp]
        · rw [if_neg (by simpa using hlen)]
          rw [List.getElem?_set_self']
          rw [List.getElem?_eq_none (by omega)]
          rfl
      · rw [if_neg hjs, List.getElem?_set_ne hpj]
        have hnot : ¬ j ∈ (p :: s).map Prod.fst := by
          simp only [List.map_cons, List.mem_cons]
          push_neg
          exact ⟨fun h => hpj h.symm, by simpa using hjs⟩
        rw [if_neg hnot]

theorem runFanOut_components (op : κ → ρ × Option ε) (sched : List (Nat × κ))
    (d : List (Option ρ)) (e : List (Option ε)) :
    sched.foldl (fanStep op) (d, e) =
      (sched.foldl (fun acc p => acc.set p.1 (some (op p.2).1)) d,
       sched.foldl (fun acc p => acc.set p.1 (op p.2).2) e) := by
  induction sched generalizing d e with
  | nil => rfl
  | cons p s ih => simp only [List.foldl_cons, fanStep]; exact ih _ _

theorem runFanOut_eq (op : κ → ρ × Option ε) (keys : List κ) (sched : List (Nat × κ))
    (hp : sched.Perm keys.enum) :
    runFanOut op keys.length sched =
      (keys.map fun k => some (op k).1, keys.map fun k => (op k).2) := by
  have hmem : ∀ j : Nat, (j ∈ sched.map Prod.fst) ↔ j < keys.length := by
    intro j
    rw [(hp.map Prod.fst).mem_iff]
    simp [List.enum_map_fst, List.mem_range]
  have hin : ∀ p ∈ sched, keys[p.1]? = some p.2 := by
    intro p hpmem
    exact List.mem_enum_iff_getElem?.mp (hp.mem_iff.mp hpmem)
  have hdata : sched.foldl (fun acc p => acc.set p.1 (some (op p.2).1))
      (List.replicate keys.length none) = keys.map fun k => some (op k).1 := by
    refine List.ext_getElem? fun j => ?_
    rw [foldl_set_getElem? (fun p => some (op p.2).1)
      (fun j => (keys[j]?).elim none fun k => some (op k).1) sched
      (fun p hpm => by simp [hin p hpm])]
    simp only [List.length_replicate, List.getElem?_replicate, List.getElem?_map, hmem j]
    by_cases hj : j < keys.length
    · simp only [if_pos hj]
      rw [List.getElem?_eq_getElem hj]
      rfl
    · simp only [if_neg hj]
      rw [List.getElem?_eq_none (by omega)]
      rfl
  have herrs : sched.foldl (fun acc p => acc.set p.1 (op p.2).2)
      (List.replicate keys.length none) = keys.map fun k => (op k).2 := by
    refine List.ext_getElem? fun j => ?_
    rw [foldl_set_getElem? (fun p => (op p.2).2)
      (fun j => (keys[j]?).elim none fun k => (op k).2) sched
      (fun p hpm => by simp [hin p hpm])]
    simp only [List.length_replicate, List.getElem?_replicate, List.getElem?_map, hmem j]
    by_cases hj : j < keys.length
    · simp only [if_pos hj]
      rw [List.getElem?_eq_getElem hj]
      rfl
    · simp only [if_neg hj]
      rw [List.getElem?_eq_none (by omega)]
      rfl
  unfold runFanOut
  rw [runFanOut_components, hdata, herrs]

theorem findSome?_eq_of_find?_isSome {α β : Type} (f : α → Option β) :
    ∀ {l : List α} {k₀ : α}, l.find? (fun k => (f k).isSome) = some k₀ →
      l.findSome? f = f k₀ := by
  intro l
  induction l with
  | nil => intro k₀ h; simp at h
  | cons a t ih =>
    intro k₀ h
    by_cases hfa : (f a).isSome
    · rw [List.find?_cons_of_pos _ (by simpa using hfa)] at h
      cases h
      rw [List.findSome?_cons_of_isSome _ hfa]
    · rw [List.find?_cons_of_neg _ (by simpa using hfa)] at h
      rw [List.findSome?_cons_of_isNone _ (by simpa using hfa)]
      exact ih h

/-! ## Claim theorems: fan-out executor -/

/-- C1: for every non-empty key list, when every per-key operation succeeds
the fan-out branch of `Client.Models` returns no error and a result list of
the same length as the key list whose slot `i` holds exactly the decoded
result of input key `i`, for every completion order of the goroutines. -/
theorem models_fanout_preserves_input_order (op : κ → ρ × Option ε)
    (keys : List κ) (sched : List (Nat × κ)) (hne : keys ≠ [])
    (hsched : sched.Perm keys.enum) (hok : ∀ k ∈ keys, (op k).2 = none) :
    (modelsFanOut op keys sched).2 = none ∧
    (modelsFanOut op keys sched).1.length = keys.length ∧
    ∀ i : Nat, (hi : i < keys.length) →
      (modelsFanOut op keys sched).1[i]? = some (some (op keys[i]).1) := by
  have hrun := runFanOut_eq op keys sched hsched
  have herr : (runFanOut op keys.length sched).2.findSome? id = none := by
    rw [hrun]
    simp only [List.findSome?_map]
    rw [List.findSome?_eq_none_iff]
    intro k hk
    simpa using hok k hk
  have hres : modelsFanOut op keys sched = (keys.map fun k => some (op k).1, none) := by
    unfold modelsFanOut
    rw [herr, hrun]
  refine ⟨by rw [hres], by rw [hres]; simp, fun i hi => ?_⟩
  rw [hres]
  simp only [List.getElem?_map]
  rw [List.getElem?_eq_getElem hi]
  rfl

/-- C1 witness: two keys completing in reverse order still fill the slots
in input order with no error. -/
theorem models_fanout_preserves_input_order_witness :
    (modelsFanOut (fun k : Nat => (k + 10, (none : Option String))) [1, 2]
      [(1, 2), (0, 1)]).2 = none :=
  (models_fanout_preserves_input_order (fun k : Nat => (k + 10, (none : Option String)))
    [1, 2] [(1, 2), (0, 1)] (by decide) (by decide) (by decide)).1

/-- C2: for every non-empty key list, if some per-key operation fails the
fan-out branch of `Client.Models` returns the error of the first failing
key in input order together with the empty result list (no per-key result
is exposed), and if every operation succeeds it returns the full result
list and no error — for every completion order of the goroutines. -/
theorem models_fanout_first_error (op : κ → ρ × Option ε) (keys : List κ)
    (sched : List (Nat × κ)) (hne : keys ≠ []) (hsched : sched.Perm keys.enum) :
    (∀ k₀, keys.find? (fun k => ((op k).2).isSome) = some k₀ →
        modelsFanOut op keys sched = ([], (op k₀).2) ∧ ((op k₀).2).isSome = true) ∧
    ((∀ k ∈ keys, (op k).2 = none) →
        modelsFanOut op keys sched = (keys.map fun k => some (op k).1, none)) := by
  have hrun := runFanOut_eq op keys sched hsched
  constructor
  · intro k₀ hfind
    have hsome : ((op k₀).2).isSome = true := by
      simpa using List.find?_some hfind
    have herr : (runFanOut op keys.length sched).2.findSome? id = (op k₀).2 := by
      rw [hrun]
      simp only [List.findSome?_map]
      exact findSome?_eq_of_find?_isSome (fun k => (op k).2) hfind
    refine ⟨?_, hsome⟩
    unfold modelsFanOut
    rw [herr]
    obtain ⟨e, he⟩ := Option.isSome_iff_exists.mp hsome
    rw [he]
  · intro hok
    have herr : (runFanOut op keys.length sched).2.findSome? id = none := by
      rw [hrun]
      simp only [List.findSome?_map]
      rw [List.findSome?_eq_none_iff]
      intro k hk
      simpa using hok k hk
    unfold modelsFanOut
    rw [herr, hrun]

/-- C2 witness: with key 2 failing among three keys (completing out of
order), the executor surfaces exactly that error and an empty result list. -/
theorem models_fanout_first_error_witness :
    modelsFanOut (fun k : Nat => (k, if k = 2 then some "boom" else none)) [1, 2, 3]
      [(2, 3), (0, 1), (1, 2)] = ([], some "boom") := by
  have h := (models_fanout_first_error
      (fun k : Nat => (k, if k = 2 then some "boom" else none))
      [1, 2, 3] [(2, 3), (0, 1), (1, 2)] (by decide) (by decide)).1 2 (by decide)
  simpa using h.1

/-! ## Supporting lemmas for the semaphore discipline -/

theorem countP_set_add {α : Type} (p : α → Bool) :
    ∀ (l : List α) (i : Nat) (a b : α), l[i]? = some a →
      (l.set i b).countP p + (if p a then 1 else 0) =
        l.countP p + (if p b then 1 else 0) := by
  intro l
  induction l with
  | nil => intro i a b h; simp at h
  | cons x t ih =>
    intro i a b h
    cases i with
    | zero =>
      simp only [List.getElem?_cons_zero, Option.some.injEq] at h
      subst h
      simp only [List.set_cons_zero, List.countP_cons]
      omega
    | succ i =>
      simp only [List.getElem?_cons_succ] at h
      simp only [List.set_cons_succ, List.countP_cons]
      have := ih i a b h
      omega

theorem countRunning_replicate_idle (n : Nat) :
    countRunning (List.replicate n TaskPC.idle) = 0 := by
  induction n with
  | zero => rfl
  | succ n ih => simp only [List.replicate_succ, countRunning, List.countP_cons] at *; simp [ih]

theorem semReachable_invariant (limit n : Nat) (s : SemState)
    (h : SemReachable limit n s) :
    countRunning s.pcs = s.tokens ∧ s.tokens ≤ limit := by
  induction h with
  | refl => exact ⟨countRunning_replicate_idle n, by simp [initSem]⟩
  | @tail b c hsteps hstep ih =>
    cases hstep with
    | acquire i hpc htok =>
      have hc := countP_set_add (fun pc => decide (pc = TaskPC.running))
        b.pcs i TaskPC.idle TaskPC.running hpc
      simp at hc
      refine ⟨?_, show b.tokens + 1 ≤ limit by omega⟩
      show countRunning (b.pcs.set i TaskPC.running) = b.tokens + 1
      unfold countRunning at *
      omega
    | release i ok hpc =>
      have hc := countP_set_add (fun pc => decide (pc = TaskPC.running))
        b.pcs i TaskPC.running TaskPC.done hpc
      simp at hc
      have hmem : TaskPC.running ∈ b.pcs := List.getElem?_mem hpc
      have hpos : 0 < b.pcs.countP fun pc => decide (pc = TaskPC.running) :=
        List.countP_pos_iff.mpr ⟨TaskPC.running, hmem, by simp⟩
      refine ⟨?_, show b.tokens - 1 ≤ limit by omega⟩
      show countRunning (b.pcs.set i TaskPC.done) = b.tokens - 1
      unfold countRunning at *
      omega

/-! ## Claim theorems: semaphore bound, Flush, headers -/

/-- C3: in every fan-out or batch-save run with `n` items under a semaphore
of capacity `limit ≥ 1`, every reachable interleaving state has at most
`limit` item operations running simultaneously; tokens are acquired before
the body runs and released unconditionally on completion (the `release`
step of `SemStep` carries the body's outcome and fires for success and
failure alike). -/
theorem sem_concurrency_bound (limit n : Nat) (hlimit : 1 ≤ limit)
    (s : SemState) (h : SemReachable limit n s) :
    countRunning s.pcs ≤ limit := by
  have hinv := semReachable_invariant limit n s h
  omega

/-- C3 witness: with capacity 1 and one task, the state reached after the
task acquires the token has one running body, within the bound. -/
theorem sem_concurrency_bound_witness :
    countRunning (SemState.mk [TaskPC.running] 1).pcs ≤ 1 :=
  sem_concurrency_bound 1 1 (by decide) ⟨[TaskPC.running], 1⟩
    (Relation.ReflTransGen.single
      (SemStep.acquire (initSem 1) 0 (by decide) (by decide)))

/-- C9 (code bug, evaluation at the failing input): an `ImageEditRequest`
holding only an open Mask handle (descriptor 7) still has that descriptor
open after `Flush`, because `CloseMaskFile` tests and closes `r.Image`
rather than `r.Mask`; with both handles open, `Flush` closes the image
descriptor twice and leaves the mask descriptor open. -/
theorem imageEditFlush_leaves_mask_open :
    (imageEditFlush ⟨none, some 7⟩ ⟨[7]⟩).openFDs = [7] ∧
    (imageEditFlush ⟨some 3, some 7⟩ ⟨[3, 7]⟩).openFDs = [7] := by
  exact ⟨rfl, rfl⟩

/-- C10: for every client configuration, a multipart request built by
`newDataRequest` carries exactly the boundary content type, the bearer
authorization header and — when the organization ID is non-empty — the
organization header; the client's additionally configured static headers
are never merged in, unlike `newJSONRequest`, which appends them
additively after the same three headers. -/
theorem data_request_headers_spec (c : ClientCfg) (contentType : String) :
    newDataRequestHeaders c contentType =
      [("Content-Type", contentType), ("Authorization", "Bearer " ++ c.apiKey)] ++
        (if c.orgID = "" then [] else [("OpenAI-Organization", c.orgID)]) ∧
    (∀ extra, newDataRequestHeaders ⟨c.apiKey, c.orgID, extra⟩ contentType =
        newDataRequestHeaders c contentType) ∧
    newJSONRequestHeaders c =
      ([("Content-Type", "application/json"),
        ("Authorization", "Bearer " ++ c.apiKey)] ++
        (if c.orgID = "" then [] else [("OpenAI-Organization", c.orgID)])) ++
        c.httpHeaders := by
  have hadd : ∀ (h : List (String × String)) (l : List (String × String)),
      l.foldl (fun acc p => hdrAdd acc p.1 p.2) h = h ++ l := by
    intro h l
    induction l generalizing h with
    | nil => simp
    | cons p t ih =>
      rw [List.foldl_cons, ih]
      simp [hdrAdd]
  refine ⟨?_, ?_, ?_⟩
  · by_cases horg : c.orgID = ""
    · simp [newDataRequestHeaders, hdrSet, horg]
    · simp [newDataRequestHeaders, hdrSet, horg]
  · intro extra
    rfl
  · by_cases horg : c.orgID = ""
    · simp [newJSONRequestHeaders, hdrSet, horg, hadd]
    · simp [newJSONRequestHeaders, hdrSet, horg, hadd]

/-! ## Claim theorems: transport executor -/

/-- C5: `doRequest` classifies a status code as success exactly when it
lies in `[200, 400)`; on any other status the surfaced error is the
non-success error carrying that status code and the message decoded from
the body's error payload, and when the payload cannot be decoded the
error is still produced, with an empty message, rather than failing to
decode. -/
theorem doRequest_status_classification {σ : Type}
    (pe : String → Option ErrorResponse) (goal : Option (String → Option σ))
    (status : Int) (body : String) :
    (isSuccessfulCode status = true ↔ 200 ≤ status ∧ status < 400) ∧
    (¬ (200 ≤ status ∧ status < 400) →
      doRequest pe goal (.response status body) =
        ("", some (.nonSuccess status
          (((pe body).getD ⟨⟨"", "", "", ""⟩⟩).error.message))) ∧
      (pe body = none →
        doRequest pe goal (.response status body) =
          ("", some (.nonSuccess status "")))) ∧
    ((200 ≤ status ∧ status < 400) →
      ∀ st msg, (doRequest pe goal (.response status body)).2 ≠
        some (.nonSuccess st msg)) := by
  have hiff : isSuccessfulCode status = true ↔ 200 ≤ status ∧ status < 400 := by
    simp [isSuccessfulCode]
  refine ⟨hiff, fun hfail => ?_, fun hsucc st msg => ?_⟩
  · have hcode : isSuccessfulCode status = false := by
      rw [Bool.eq_false_iff]
      intro hc
      exact hfail (hiff.mp hc)
    constructor
    · simp [doRequest, hcode]
    · intro hpe
      simp [doRequest, hcode, hpe]
  · have hcode : isSuccessfulCode status = true := hiff.mpr hsucc
    simp only [doRequest, hcode, Bool.not_true, Bool.false_eq_true, if_false]
    match goal with
    | none => simp
    | some dec =>
      match hdec : dec body with
      | some v => simp [hdec]
      | none => simp [hdec]

/-- C5 witness: a 404 response with an undecodable body still surfaces the
non-success error with status 404 and an empty message. -/
theorem doRequest_status_classification_witness :
    doRequest (fun _ => none) (none : Option (String → Option Unit))
      (.response 404 "oops") = ("", some (.nonSuccess 404 "")) :=
  (((doRequest_status_classification (fun _ => none)
      (none : Option (String → Option Unit)) 404 "oops").2.1
    (by decide)).2 rfl)

/-- C6: a transport failure whose underlying error is a timeout surfaces
exactly the `ErrRequestTimedOut` sentinel, and a non-timeout transport
failure surfaces the underlying error, which is never that sentinel, so
callers can distinguish timeouts from other connectivity failures. -/
theorem doRequest_timeout_distinguished {σ : Type}
    (pe : String → Option ErrorResponse) (goal : Option (String → Option σ))
    (e : GoError) :
    (e.isNetTimeout = true →
      doRequest pe goal (.failure e) = ("", some .requestTimedOut)) ∧
    (e.isNetTimeout = false →
      doRequest pe goal (.failure e) = ("", some (.underlying e)) ∧
      ReqError.underlying e ≠ ReqError.requestTimedOut) := by
  refine ⟨fun ht => ?_, fun ht => ⟨?_, by simp⟩⟩
  · simp [doRequest, ht]
  · simp [doRequest, ht]

/-- C6 witness: a concrete timeout error and a concrete refused-connection
error are mapped to the sentinel and to a distinct error respectively. -/
theorem doRequest_timeout_distinguished_witness :
    doRequest (fun _ => none) (none : Option (String → Option Unit))
      (.failure ⟨"deadline exceeded", true⟩) = ("", some .requestTimedOut) ∧
    doRequest (fun _ => none) (none : Option (String → Option Unit))
      (.failure ⟨"connection refused", false⟩) =
        ("", some (.underlying ⟨"connection refused", false⟩)) :=
  ⟨(doRequest_timeout_distinguished (fun _ => none)
      (none : Option (String → Option Unit)) ⟨"deadline exceeded", true⟩).1 rfl,
   ((doRequest_timeout_distinguished (fun _ => none)
      (none : Option (String → Option Unit)) ⟨"connection refused", false⟩).2 rfl).1⟩

/-- C7 counterexample: a failing response (status 404, body "boom") makes
`doRequest` return the empty byte slice together with the error — the raw
body bytes are not returned to the caller on the failure path, contrary to
the claim that they always are. -/
theorem doRequest_failure_drops_body :
    (doRequest (fun _ => none) (none : Option (String → Option Unit))
      (.response 404 "boom")).1 = "" ∧
    ((doRequest (fun _ => none) (none : Option (String → Option Unit))
      (.response 404 "boom")).2).isSome = true ∧
    ("boom" : String) ≠ "" := by
  refine ⟨rfl, rfl, by decide⟩

/-- C7 (amended): `doRequest` returns the raw body bytes exactly on the
success path — always when the sink is null, and when decoding succeeds
otherwise — so callers needing raw text use the null-sink success path;
on every failure (transport failure, non-success status, or success-path
decode failure) the empty byte slice is returned instead of the raw
body. -/
theorem doRequest_body_policy {σ : Type}
    (pe : String → Option ErrorResponse) (goal : Option (String → Option σ))
    (tr : TransportResult) :
    (∀ status body, tr = .response status body → isSuccessfulCode status = true →
      (goal = none → doRequest pe goal tr = (body, none)) ∧
      (∀ dec, goal = some dec →
        ((dec body).isSome = true → doRequest pe goal tr = (body, none)) ∧
        (dec body = none → doRequest pe goal tr = ("", some .decodeFailed)))) ∧
    (((doRequest pe goal tr).2).isSome = true → (doRequest pe goal tr).1 = "") := by
  constructor
  · rintro status body rfl hcode
    constructor
    · rintro rfl
      simp [doRequest, hcode]
    · rintro dec rfl
      constructor
      · intro hsome
        obtain ⟨v, hv⟩ := Option.isSome_iff_exists.mp hsome
        simp [doRequest, hcode, hv]
      · intro hnone
        simp [doRequest, hcode, hnone]
  · intro hsome
    match tr with
    | .failure e =>
      by_cases ht : e.isNetTimeout <;> simp [doRequest, ht]
    | .response status body =>
      by_cases hcode : isSuccessfulCode status
      · simp only [doRequest, hcode, Bool.not_true, Bool.false_eq_true, if_false] at hsome ⊢
        match goal with
        | none => simp at hsome
        | some dec =>
          match hdec : dec body with
          | some v => simp [hdec] at hsome
          | none => simp [hdec]
      · simp only [Bool.not_eq_true] at hcode
        simp [doRequest, hcode]

/-- C7 amended-claim witness: a null-sink 200 response returns its raw
body with no error, and the failing 404 response returns empty bytes. -/
theorem doRequest_body_policy_witness :
    doRequest (fun _ => none) (none : Option (String → Option Unit))
      (.response 200 "raw text") = ("raw text", none) ∧
    (doRequest (fun _ => none) (none : Option (String → Option Unit))
      (.response 500 "zap")).1 = "" :=
  ⟨((doRequest_body_policy (fun _ => none) (none : Option (String → Option Unit))
      (.response 200 "raw text")).1 200 "raw text" rfl (by decide)).1 rfl,
   (doRequest_body_policy (fun _ => none) (none : Option (String → Option Unit))
      (.response 500 "zap")).2 rfl⟩

/-! ## Supporting lemmas for the multipart marshaler -/

theorem multipartParts_shift (fields : List StructField) (a : List Part) :
    fields.foldl
      (fun acc f =>
        if f.jsonTag = "" then acc
        else
          match f.value with
          | .fileVal none => acc
          | .fileVal (some file) =>
            acc ++ [.filePart (jsonFieldName f.jsonTag) (filepathBase file.name)
              file.content]
          | .strVal s => acc ++ [.fieldPart (jsonFieldName f.jsonTag) s]
          | .jsonVal j => acc ++ [.fieldPart (jsonFieldName f.jsonTag) (Json.render j)])
      a = a ++ multipartParts fields := by
  induction fields generalizing a with
  | nil => simp [multipartParts]
  | cons f t ih =>
    show List.foldl _ _ (f :: t) = _
    rw [List.foldl_cons, ih]
    have hcons : multipartParts (f :: t) = multipartParts [f] ++ multipartParts t := by
      show List.foldl _ [] (f :: t) = _
      rw [List.foldl_cons, ih]
      rfl
    rw [hcons, ← List.append_assoc]
    congr 1
    rcases f with ⟨tag, v⟩
    rcases v with f' | s | j
    · rcases f' with _ | file
      · by_cases htag : tag = "" <;> simp [multipartParts, htag]
      · by_cases htag : tag = "" <;> simp [multipartParts, htag]
    · by_cases htag : tag = "" <;> simp [multipartParts, htag]
    · by_cases htag : tag = "" <;> simp [multipartParts, htag]

/-! ## Claim theorems: multipart marshaler -/

/-- C4: the multipart marshaler encodes each tagged field as follows — a
nil file-handle field is skipped entirely (no part, no error path taken),
a non-nil file-handle field becomes a form file part named by the wire
name with the file's base name as filename and the file contents
streamed, a string field is written verbatim as a form field, and every
other field is JSON-encoded with the encoded text as the form field value;
in particular a boolean `true` is written as the literal text `true`.
Parts compose per field in declaration order (first conjunct). -/
theorem multipart_field_encoding :
    (∀ fs₁ fs₂ : List StructField,
      multipartParts (fs₁ ++ fs₂) = multipartParts fs₁ ++ multipartParts fs₂) ∧
    (∀ tag, tag ≠ "" → multipartParts [⟨tag, .fileVal none⟩] = []) ∧
    (∀ tag file, tag ≠ "" →
      multipartParts [⟨tag, .fileVal (some file)⟩] =
        [.filePart (jsonFieldName tag) (filepathBase file.name) file.content]) ∧
    (∀ tag s, tag ≠ "" →
      multipartParts [⟨tag, .strVal s⟩] = [.fieldPart (jsonFieldName tag) s]) ∧
    (∀ tag j, tag ≠ "" →
      multipartParts [⟨tag, .jsonVal j⟩] =
        [.fieldPart (jsonFieldName tag) (Json.render j)]) ∧
    (∀ tag, tag ≠ "" →
      multipartParts [⟨tag, .jsonVal (.bool true)⟩] =
        [.fieldPart (jsonFieldName tag) "true"]) := by
  refine ⟨fun fs₁ fs₂ => ?_, fun tag h => ?_, fun tag file h => ?_,
    fun tag s h => ?_, fun tag j h => ?_, fun tag h => ?_⟩
  · show List.foldl _ _ (fs₁ ++ fs₂) = _
    rw [List.foldl_append]
    exact multipartParts_shift fs₂ (multipartParts fs₁)
  · simp [multipartParts, h]
  · simp [multipartParts, h]
  · simp [multipartParts, h]
  · simp [multipartParts, h]
  · simp [multipartParts, h, Json.render]

/-- C4 witness: a request with one populated file field, one nil optional
file field, a boolean `true` field and a string field yields exactly one
file part, the literal text `true`, and the verbatim string. -/
theorem multipart_field_encoding_witness :
    multipartParts
      [⟨"image", .fileVal (some ⟨"/tmp/cat.png", [7, 8]⟩)⟩,
       ⟨"mask,omitempty", .fileVal none⟩,
       ⟨"stream,omitempty", .jsonVal (.bool true)⟩,
       ⟨"prompt", .strVal "hello"⟩] =
      [.filePart "image" "cat.png" [7, 8],
       .fieldPart "stream" "true",
       .fieldPart "prompt" "hello"] := by
  have h := multipart_field_encoding
  rw [show ([⟨"image", .fileVal (some ⟨"/tmp/cat.png", [7, 8]⟩)⟩,
       ⟨"mask,omitempty", .fileVal none⟩,
       ⟨"stream,omitempty", .jsonVal (.bool true)⟩,
       ⟨"prompt", .strVal "hello"⟩] : List StructField) =
      [⟨"image", .fileVal (some ⟨"/tmp/cat.png", [7, 8]⟩)⟩] ++
        ([⟨"mask,omitempty", .fileVal none⟩] ++
          ([⟨"stream,omitempty", .jsonVal (.bool true)⟩] ++
            [⟨"prompt", .strVal "hello"⟩])) from rfl,
    h.1, h.1, h.1,
    h.2.2.1 "image" ⟨"/tmp/cat.png", [7, 8]⟩ (by decide),
    h.2.1 "mask,omitempty" (by decide),
    h.2.2.2.2.2 "stream,omitempty" (by decide),
    h.2.2.2.1 "prompt" "hello" (by decide)]
  decide

/-! ## Supporting lemmas for the endpoint builder -/

theorem startsSlash_of_not_mem {g : List Char} (hg : '/' ∉ g) :
    startsSlash g = false := by
  cases g with
  | nil => rfl
  | cons c t =>
    have hc : c ≠ '/' := fun h => hg (by simp [h])
    simp only [startsSlash, List.head?_cons]
    simp [hc]

theorem endsSlash_of_not_mem {g : List Char} (hg : '/' ∉ g) :
    endsSlash g = false := by
  unfold endsSlash
  cases h : g.getLast? with
  | none => rfl
  | some c =>
    have hc : c ≠ '/' := fun hh => hg (hh ▸ List.mem_of_getLast?_eq_some h)
    simp [hc]

theorem hds_of_not_mem : ∀ (g : List Char), '/' ∉ g → hasDoubleSlash g = false
  | [], _ => rfl
  | [_], _ => rfl
  | a :: b :: t, h => by
    have ha : a ≠ '/' := fun hh => h (by simp [hh])
    have hr : '/' ∉ b :: t := fun hh => h (List.mem_cons_of_mem _ hh)
    show ((a == '/') && (b == '/') || hasDoubleSlash (b :: t)) = false
    rw [hds_of_not_mem (b :: t) hr]
    simp [ha]

theorem hds_append : ∀ (xs ys : List Char),
    hasDoubleSlash (xs ++ ys) =
      (hasDoubleSlash xs || hasDoubleSlash ys || (endsSlash xs && startsSlash ys))
  | [], ys => by simp [hasDoubleSlash, endsSlash]
  | [a], ys => by
    cases ys with
    | nil => simp [hasDoubleSlash, endsSlash, startsSlash]
    | cons c t =>
      show ((a == '/') && (c == '/') || hasDoubleSlash (c :: t)) = _
      simp only [hasDoubleSlash, endsSlash, startsSlash, List.getLast?_singleton,
        List.head?_cons, Bool.false_or]
      rw [Bool.or_comm]
  | a :: b :: t, ys => by
    have ih := hds_append (b :: t) ys
    have hend : endsSlash (a :: b :: t) = endsSlash (b :: t) := by
      unfold endsSlash
      rw [List.getLast?_cons_cons]
    show ((a == '/') && (b == '/') || hasDoubleSlash (b :: t ++ ys)) = _
    rw [ih, hend]
    show _ = (((a == '/') && (b == '/') || hasDoubleSlash (b :: t)) || hasDoubleSlash ys ||
      (endsSlash (b :: t) && startsSlash ys))
    simp only [Bool.or_assoc]

theorem hds_cons_slash (l : List Char) (h1 : startsSlash l = false)
    (h2 : hasDoubleSlash l = false) : hasDoubleSlash ('/' :: l) = false := by
  cases l with
  | nil => rfl
  | cons c t =>
    simp only [startsSlash, List.head?_cons] at h1
    show ((('/' : Char) == '/') && (c == '/') || hasDoubleSlash (c :: t)) = false
    simp [h1, h2]

theorem splitSlash_ne_nil (cs : List Char) : splitSlash cs ≠ [] := by
  cases cs with
  | nil => simp [splitSlash]
  | cons c rest =>
    by_cases hc : c = '/'
    · simp [splitSlash, hc]
    · simp only [splitSlash, if_neg hc]
      split <;> simp

theorem splitSlash_no_slash : ∀ (cs : List Char), ∀ g ∈ splitSlash cs, '/' ∉ g
  | [], g, hg => by
    simp only [splitSlash, List.mem_singleton] at hg
    simp [hg]
  | c :: rest, g, hg => by
    by_cases hc : c = '/'
    · simp only [splitSlash, if_pos hc, List.mem_cons] at hg
      rcases hg with hg | hg
      · simp [hg]
      · exact splitSlash_no_slash rest g hg
    · simp only [splitSlash, if_neg hc] at hg
      cases hsp : splitSlash rest with
      | nil => exact absurd hsp (splitSlash_ne_nil rest)
      | cons g0 gs =>
        rw [hsp] at hg
        simp only [List.mem_cons] at hg
        rcases hg with hg | hg
        · subst hg
          intro hmem
          rcases List.mem_cons.mp hmem with h | h
          · exact hc h.symm
          · exact splitSlash_no_slash rest g0 (by rw [hsp]; simp) h
        · exact splitSlash_no_slash rest g (by rw [hsp]; exact List.mem_cons_of_mem _ hg)

theorem cleanParts_good (rooted : Bool) :
    ∀ (input acc : List (List Char)),
      (∀ g ∈ acc, g ≠ [] ∧ '/' ∉ g) → (∀ g ∈ input, '/' ∉ g) →
      ∀ g ∈ cleanParts rooted acc input, g ≠ [] ∧ '/' ∉ g
  | [], acc, hacc, _, g, hg => by
    simp only [cleanParts] at hg
    exact hacc g (List.mem_reverse.mp hg)
  | p :: rest, acc, hacc, hin, g, hg => by
    have hinr : ∀ x ∈ rest, '/' ∉ x := fun x hx => hin x (by simp [hx])
    have hp : '/' ∉ p := hin p (by simp)
    simp only [cleanParts] at hg
    by_cases h1 : p = [] ∨ p = ['.']
    · rw [if_pos h1] at hg
      exact cleanParts_good rooted rest acc hacc hinr g hg
    · rw [if_neg h1] at hg
      by_cases h2 : p = ['.', '.']
      · rw [if_pos h2] at hg
        cases acc with
        | nil =>
          dsimp only at hg
          cases rooted with
          | true =>
            simp only [if_pos rfl] at hg
            exact cleanParts_good true rest [] (by simp) hinr g hg
          | false =>
            simp only [Bool.false_eq_true, if_neg] at hg
            refine cleanParts_good false rest [['.', '.']] ?_ hinr g hg
            intro g' hg'
            simp only [List.mem_singleton] at hg'
            subst hg'
            exact ⟨by simp, by decide⟩
        | cons top tail =>
          dsimp only at hg
          by_cases h3 : top = ['.', '.']
          · rw [if_pos h3] at hg
            refine cleanParts_good rooted rest (['.', '.'] :: top :: tail) ?_ hinr g hg
            intro g' hg'
            rcases List.mem_cons.mp hg' with h | h
            · subst h; exact ⟨by simp, by decide⟩
            · exact hacc g' h
          · rw [if_neg h3] at hg
            exact cleanParts_good rooted rest tail
              (fun g' hg' => hacc g' (by simp [hg'])) hinr g hg
      · rw [if_neg h2] at hg
        refine cleanParts_good rooted rest (p :: acc) ?_ hinr g hg
        intro g' hg'
        rcases List.mem_cons.mp hg' with h | h
        · subst h; exact ⟨fun hnil => h1 (Or.inl hnil), hp⟩
        · exact hacc g' h

theorem joinSlash_ne_nil (g : List Char) (gs : List (List Char)) (h : g ≠ []) :
    joinSlash (g :: gs) ≠ [] := by
  cases gs with
  | nil => simpa [joinSlash] using h
  | cons g' gs' =>
    show g ++ '/' :: joinSlash (g' :: gs') ≠ []
    simp

theorem joinSlash_good : ∀ (gs : List (List Char)),
    (∀ g ∈ gs, g ≠ [] ∧ '/' ∉ g) →
    hasDoubleSlash (joinSlash gs) = false ∧ startsSlash (joinSlash gs) = false ∧
      endsSlash (joinSlash gs) = false
  | [], _ => ⟨rfl, rfl, rfl⟩
  | [g], h => by
    have hg := h g (by simp)
    show hasDoubleSlash g = false ∧ startsSlash g = false ∧ endsSlash g = false
    exact ⟨hds_of_not_mem g hg.2, startsSlash_of_not_mem hg.2,
      endsSlash_of_not_mem hg.2⟩
  | g :: g' :: gs, h => by
    have hg := h g (by simp)
    have hrest : ∀ x ∈ g' :: gs, x ≠ [] ∧ '/' ∉ x := fun x hx => h x (by simp [hx])
    have ih := joinSlash_good (g' :: gs) hrest
    have hne : joinSlash (g' :: gs) ≠ [] := joinSlash_ne_nil g' gs (hrest g' (by simp)).1
    show hasDoubleSlash (g ++ '/' :: joinSlash (g' :: gs)) = false ∧
      startsSlash (g ++ '/' :: joinSlash (g' :: gs)) = false ∧
      endsSlash (g ++ '/' :: joinSlash (g' :: gs)) = false
    refine ⟨?_, ?_, ?_⟩
    · rw [hds_append]
      rw [hds_of_not_mem g hg.2, hds_cons_slash _ ih.2.1 ih.1,
        endsSlash_of_not_mem hg.2]
      rfl
    · cases hgc : g with
      | nil => exact absurd hgc hg.1
      | cons c t =>
        have hc : c ≠ '/' := fun hh => hg.2 (by rw [hgc, hh]; simp)
        show startsSlash (c :: t ++ '/' :: joinSlash (g' :: gs)) = false
        simp only [startsSlash, List.cons_append, List.head?_cons]
        simp [hc]
    · cases hJ : joinSlash (g' :: gs) with
      | nil => exact absurd hJ hne
      | cons c t =>
        have he : endsSlash (c :: t) = false := hJ ▸ ih.2.2
        show endsSlash (g ++ '/' :: c :: t) = false
        unfold endsSlash at he ⊢
        rw [List.getLast?_append, List.getLast?_cons_cons]
        cases hx : (c :: t).getLast? with
        | none => simp at hx
        | some x =>
          rw [hx] at he
          simp only [Option.or_some]
          exact he

theorem pathClean_hds (p : List Char) : hasDoubleSlash (pathClean p) = false := by
  by_cases hp : p = []
  · simp [pathClean, hp]
    rfl
  · have hgood := cleanParts_good (startsSlash p) (splitSlash p) [] (by simp)
      (splitSlash_no_slash p)
    rw [pathClean, if_neg hp]
    cases hcp : cleanParts (startsSlash p) [] (splitSlash p) with
    | nil => cases hss : startsSlash p <;> simp <;> decide
    | cons q qs =>
      have hgq : ∀ g ∈ q :: qs, g ≠ [] ∧ '/' ∉ g := hcp ▸ hgood
      have hjs := joinSlash_good (q :: qs) hgq
      cases hss : startsSlash p
      · simpa using hjs.1
      · simpa using hds_cons_slash _ hjs.2.1 hjs.1

theorem pathJoin_hds (elems : List (List Char)) :
    hasDoubleSlash (pathJoin elems) = false := by
  cases h : elems.dropWhile (fun e => e = []) with
  | nil => simp [pathJoin, h]; rfl
  | cons r rs => simp [pathJoin, h, pathClean_hds]

/-! ## Claim theorems: endpoint builder -/

/-- C8 counterexample: Go's URL parser is lenient and accepts
`"not a url"` as a path-only URL, so `urlBuild "not a url" []` succeeds
(producing the percent-escaped path) rather than failing — refuting the
claim that `build("not a url", S)` fails for every segment list `S`. -/
theorem urlBuild_not_a_url_succeeds :
    urlBuild "not a url".data [] = .ok "not%20a%20url".data := by
  rfl

/-- C8 (amended): `urlBuild` fails by propagating the parse error whenever
the base URL cannot be parsed; however `"not a url"` is accepted by the
parser (as an opaque path), so building from it succeeds for every
segment list; and for every parseable base and segment list the joined
path contains no duplicated separators. -/
theorem urlBuild_base_parsing :
    (∀ (base : List Char) (segs : List (List Char)) (e : URLParseError),
      urlParse base = .error e → urlBuild base segs = .error e) ∧
    (∀ segs : List (List Char), ∃ out, urlBuild "not a url".data segs = .ok out) ∧
    (∀ (base : List Char) (segs : List (List Char)) (u : GoURL),
      urlParse base = .ok u →
      urlBuild base segs = .ok (urlString ⟨u.scheme, u.host, urlBuildPath u segs⟩) ∧
      hasDoubleSlash (urlBuildPath u segs) = false) := by
  refine ⟨fun base segs e h => ?_, fun segs => ?_,
    fun base segs u h => ⟨?_, pathJoin_hds _⟩⟩
  · simp [urlBuild, h]
  · have h : urlParse "not a url".data = .ok ⟨[], [], "not a url".data⟩ := rfl
    exact ⟨_, by rw [urlBuild, h]⟩
  · simp [urlBuild, h]

/-- C8 amended-claim witness: a base URL with a control character fails to
parse and the error is propagated; the lenient base succeeds; and the
path joined from a concrete parsed base and segments has no duplicated
separator. -/
theorem urlBuild_base_parsing_witness :
    urlBuild ['\x01'] [] = .error URLParseError.invalidControlCharacter ∧
    (∃ out, urlBuild "not a url".data [['x']] = .ok out) ∧
    hasDoubleSlash (urlBuildPath ⟨"https".data, "api.openai.com".data, "/v1".data⟩
      ["/models".data, "gpt-4".data]) = false := by
  refine ⟨?_, ?_, ?_⟩
  · exact urlBuild_base_parsing.1 ['\x01'] [] URLParseError.invalidControlCharacter rfl
  · exact urlBuild_base_parsing.2.1 [['x']]
  · exact (urlBuild_base_parsing.2.2 "https://api.openai.com/v1".data
      ["/models".data, "gpt-4".data]
      ⟨"https".data, "api.openai.com".data, "/v1".data⟩ rfl).2

end OpenAI
